import Mathlib

/-!
Shallow embedding of PyFastaParser (src/FastaParser/FastaParser.py).

Strings are modelled as `List Char`; Python `None` becomes `Option`;
Python exceptions (TypeError on empty sequence, KeyError on a missing
complement entry) become `none` results.  Python floats are modelled as
exact rationals.  Memoization of `gc_content` / `at_gc_ratio` is elided:
the cached value can never differ from a recomputation because a
FastaSequence's type and sequence never change after construction.
-/

namespace FastaParser

/-- Python sequence-type strings 'nucleotide' / 'aminoacid'. -/
inductive SequenceType where
  | nucleotide
  | aminoacid
deriving DecidableEq, Repr

/-- `nucleotide_letter_codes_good` dictionary (key, description). -/
def nucleotide_letter_codes_good : List (Char × String) :=
  [('A', "adenosine"),
   ('C', "cytidine"),
   ('G', "guanine"),
   ('T', "thymidine"),
   ('N', "any (A/G/C/T)"),
   ('U', "uridine")]

/-- `nucleotide_letter_codes_degenerate` dictionary. -/
def nucleotide_letter_codes_degenerate : List (Char × String) :=
  [('K', "keto (G/T)"),
   ('S', "strong (G/C)"),
   ('Y', "pyrimidine (T/C)"),
   ('M', "amino (A/C)"),
   ('W', "weak (A/T)"),
   ('R', "purine (G/A)"),
   ('B', "G/T/C"),
   ('D', "G/A/T"),
   ('H', "A/C/T"),
   ('V', "G/C/A"),
   ('-', "gap of indeterminate length")]

/-- `nucleotide_letter_codes_complement` dictionary. -/
def nucleotide_letter_codes_complement : List (Char × Char) :=
  [('A', 'T'),
   ('C', 'G'),
   ('G', 'C'),
   ('T', 'A'),
   ('N', 'N'),
   ('U', 'A'),
   ('K', 'M'),
   ('S', 'S'),
   ('Y', 'R'),
   ('M', 'K'),
   ('W', 'W'),
   ('R', 'Y'),
   ('B', 'V'),
   ('D', 'H'),
   ('H', 'D'),
   ('V', 'B'),
   ('-', '-')]

/-- `aminoacid_letter_codes_good` dictionary. -/
def aminoacid_letter_codes_good : List (Char × String) :=
  [('A', "alanine"),
   ('B', "aspartate/asparagine"),
   ('C', "cystine"),
   ('D', "aspartate"),
   ('E', "glutamate"),
   ('F', "phenylalanine"),
   ('G', "glycine"),
   ('H', "histidine"),
   ('I', "isoleucine"),
   ('K', "lysine"),
   ('L', "leucine"),
   ('M', "methionine"),
   ('N', "asparagine"),
   ('P', "proline"),
   ('Q', "glutamine"),
   ('R', "arginine"),
   ('S', "serine"),
   ('T', "threonine"),
   ('U', "selenocysteine"),
   ('V', "valine"),
   ('W', "tryptophan"),
   ('Y', "tyrosine"),
   ('Z', "glutamate/glutamine"),
   ('X', "any"),
   ('*', "translation stop")]

/-- `aminoacid_letter_codes_degenerate` dictionary. -/
def aminoacid_letter_codes_degenerate : List (Char × String) :=
  [('-', "gap of indeterminate length")]

/-- Dictionary lookup on an association list of (letter, description). -/
def lookupDescription (table : List (Char × String)) (c : Char) : Option String :=
  (table.find? (fun p => p.1 = c)).map (fun p => p.2)

/-- Dictionary lookup on the complement table. -/
def lookupComplement (table : List (Char × Char)) (c : Char) : Option Char :=
  (table.find? (fun p => p.1 = c)).map (fun p => p.2)

/-- Keys of `nucleotide_letter_codes_good` + `nucleotide_letter_codes_degenerate`
(the set `nucleotide_letter_codes_all`). -/
def nucleotide_letter_codes_all : List Char :=
  (nucleotide_letter_codes_good ++ nucleotide_letter_codes_degenerate).map (fun p => p.1)

/-- Keys of `aminoacid_letter_codes_good` + `aminoacid_letter_codes_degenerate`
(the set `aminoacid_letter_codes_all`). -/
def aminoacid_letter_codes_all : List Char :=
  (aminoacid_letter_codes_good ++ aminoacid_letter_codes_degenerate).map (fun p => p.1)

/-- `aminoacids_not_in_nucleotides = aminoacid_letter_codes_all - nucleotide_letter_codes_all`. -/
def aminoacids_not_in_nucleotides : List Char :=
  aminoacid_letter_codes_all.filter (fun c => ¬ nucleotide_letter_codes_all.contains c)

/-- All letter codes of either domain (`letter_codes_all`). -/
def letter_codes_all : List Char :=
  nucleotide_letter_codes_all ++ aminoacid_letter_codes_all

/-- `_letter_code_dictionary[t][0]`: the "good" table of a domain. -/
def goodTable : SequenceType → List (Char × String)
  | .nucleotide => nucleotide_letter_codes_good
  | .aminoacid => aminoacid_letter_codes_good

/-- `_letter_code_dictionary[t][1]`: the "degenerate" table of a domain. -/
def degenerateTable : SequenceType → List (Char × String)
  | .nucleotide => nucleotide_letter_codes_degenerate
  | .aminoacid => aminoacid_letter_codes_degenerate

/-- A constructed `LetterCode` object: upper-cased letter, optional domain,
description, tri-state degenerate flag, supported flag. -/
structure LetterCode where
  letter_code : Char
  sequence_type : Option SequenceType
  description : String
  degenerate : Option Bool
  supported : Bool
deriving DecidableEq, Repr

/-- `LetterCode.__init__` / `_update_sequence_type`.  The letter is
upper-cased; the "not a valid letter code" warning is non-fatal and not
modelled.  The TypeError on a non-single-character argument cannot arise
for a `Char`. -/
def mkLetterCode (letter_code : Char) (sequence_type : Option SequenceType) : LetterCode :=
  let c := letter_code.toUpper
  match sequence_type with
  | some t =>
    match lookupDescription (goodTable t) c with
    | some d => ⟨c, some t, d, some false, true⟩
    | none =>
      match lookupDescription (degenerateTable t) c with
      | some d => ⟨c, some t, d, some true, true⟩
      | none => ⟨c, some t, "", none, false⟩
  | none => ⟨c, none, "", none, false⟩

/-- `LetterCode.complement`.  Raises TypeError unless the sequence type is
'nucleotide' (modelled as `none`); a letter absent from the complement
dictionary would raise KeyError (also `none`). -/
def LetterCode.complement (lc : LetterCode) : Option LetterCode :=
  if lc.sequence_type = some SequenceType.nucleotide then
    (lookupComplement nucleotide_letter_codes_complement lc.letter_code).map
      (fun c => mkLetterCode c lc.sequence_type)
  else
    none

/-- Python whitespace for `str.strip` / `str.split` (ASCII range). -/
def isPySpace (c : Char) : Bool :=
  c = ' ' || c = '\t' || c = '\n' || c = '\r' || c = '\x0b' || c = '\x0c'

/-- Python `str.strip()`: remove leading and trailing whitespace. -/
def pyStrip (l : List Char) : List Char :=
  ((l.dropWhile isPySpace).reverse.dropWhile isPySpace).reverse

/-- Python `str.split(maxsplit=1)` with the default (whitespace-run)
separator: at most two pieces, leading whitespace skipped, the second
piece starting at the first non-whitespace character after the first
separator run and kept verbatim (trailing whitespace included). -/
def splitMax1 (s : List Char) : List (List Char) :=
  let s1 := s.dropWhile isPySpace
  match s1 with
  | [] => []
  | _ =>
    let tok := s1.takeWhile (fun c => !isPySpace c)
    let rest := (s1.dropWhile (fun c => !isPySpace c)).dropWhile isPySpace
    if rest = [] then [tok] else [tok, rest]

/-- Header parsing in `FastaSequence.__init__`: split the definition line
on the first whitespace run; strip one leading '>' from the id token;
a lone '>' (or an effectively empty line) yields empty id and
description. -/
def parseDefinitionLine (definition_line : List Char) : List Char × List Char :=
  match splitMax1 definition_line with
  | [] => ([], [])
  | [tok] =>
    if tok = ['>'] then ([], [])
    else if tok.head? = some '>' then (tok.tail, []) else (tok, [])
  | tok :: dsc :: _ =>
    if tok.head? = some '>' then (tok.tail, dsc) else (tok, dsc)

/-- `FastaSequence._infer_sequence_type`: returns the new sequence type
('aminoacid' or None) together with the `_inferred_type` flag it sets. -/
def inferSequenceTypeResult (string_sequence : List Char) : Option SequenceType × Bool :=
  if string_sequence.any (fun c => aminoacids_not_in_nucleotides.contains c) then
    (some SequenceType.aminoacid, true)
  else
    (none, false)

/-- A constructed `FastaSequence` object. -/
structure FastaSequence where
  id : List Char
  description : List Char
  sequence : List LetterCode
  sequence_type : Option SequenceType
  inferred_type : Bool
deriving DecidableEq, Repr

/-- `FastaSequence.__init__`.  `none` models the TypeError raised on an
empty sequence string; all other TypeErrors concern Python dynamic types
that the embedding rules out.  When `infer_type` is true the result of
`_infer_sequence_type` overwrites `sequence_type` unconditionally (it is
`None` when no aminoacid-exclusive letter occurs). -/
def mkFastaSequence (definition_line sequence : List Char)
    (sequence_type : Option SequenceType) (infer_type : Bool) : Option FastaSequence :=
  let i := (parseDefinitionLine definition_line).1
  let d := (parseDefinitionLine definition_line).2
  if sequence = [] then none
  else
    let stAndFlag := if infer_type then inferSequenceTypeResult sequence else (sequence_type, false)
    some ⟨i, d, sequence.map (fun c => mkLetterCode c stAndFlag.1), stAndFlag.1, stAndFlag.2⟩

/-- `mapM` over `Option`, written out so that its equations are easy to
induct on (models a Python loop that can raise). -/
def mapOption (f : α → Option β) : List α → Option (List β)
  | [] => some []
  | a :: l =>
    match f a, mapOption f l with
    | some b, some bs => some (b :: bs)
    | _, _ => none

/-- `FastaSequence.complement`: TypeError (`none`) unless the record's
type is 'nucleotide'; complements every letter (KeyError → `none`), then
constructs a new FastaSequence from `id + ' ' + description`, the
complemented string and the same sequence type. -/
def FastaSequence.complement (fs : FastaSequence) : Option FastaSequence :=
  if fs.sequence_type = some SequenceType.nucleotide then
    match mapOption (fun lc => lc.complement.map (fun r => r.letter_code)) fs.sequence with
    | some chars => mkFastaSequence (fs.id ++ ' ' :: fs.description) chars fs.sequence_type false
    | none => none
  else
    none

/-- The `gc` counter of `gc_content` / `at_gc_ratio`: how many letters
of the sequence are in ('G', 'C', 'S'). -/
def FastaSequence.gcCount (fs : FastaSequence) : ℕ :=
  fs.sequence.countP (fun lc => (['G', 'C', 'S'] : List Char).contains lc.letter_code)

/-- The `at` counter of `at_gc_ratio`: how many letters of the sequence
are in ('A', 'T', 'W'). -/
def FastaSequence.atCount (fs : FastaSequence) : ℕ :=
  fs.sequence.countP (fun lc => (['A', 'T', 'W'] : List Char).contains lc.letter_code)

/-- `FastaSequence.gc_content`: TypeError (`none`) unless 'nucleotide';
counts G/C/S letters; divides by the length (a rational models the
Python float); multiplies by 100 when `as_percentage`. -/
def FastaSequence.gc_content (fs : FastaSequence) (as_percentage : Bool) : Option ℚ :=
  if fs.sequence_type = some SequenceType.nucleotide then
    let r : ℚ := (fs.gcCount : ℚ) / (fs.sequence.length : ℚ)
    some (if as_percentage then r * 100 else r)
  else
    none

/-- `FastaSequence.at_gc_ratio`: TypeError (`none`) unless 'nucleotide';
counts A/T/W and G/C/S letters and returns at/gc, or 0 when gc = 0. -/
def FastaSequence.at_gc_ratio (fs : FastaSequence) : Option ℚ :=
  if fs.sequence_type = some SequenceType.nucleotide then
    some (if fs.gcCount ≠ 0 then (fs.atCount : ℚ) / (fs.gcCount : ℚ) else 0)
  else
    none

/-- `FastaSequence.formatted_definition_line`: `'>' + id + ' ' + description`. -/
def FastaSequence.formatted_definition_line (fs : FastaSequence) : List Char :=
  '>' :: fs.id ++ ' ' :: fs.description

/-- `FastaSequence.sequence_as_string`: join of the letter codes. -/
def FastaSequence.sequence_as_string (fs : FastaSequence) : List Char :=
  fs.sequence.map (fun lc => lc.letter_code)

/-- Normalize one Python slice index for a list of length `n`. -/
def pySliceIdx (n : ℕ) (i : ℤ) : ℕ :=
  if i < 0 then (i + n).toNat else min i.toNat n

/-- Python list slice `l[a:b]`. -/
def pySlice (l : List Char) (a b : ℤ) : List Char :=
  (l.take (pySliceIdx l.length b)).drop (pySliceIdx l.length a)

/-- The while-loop of `FastaSequence.formatted_sequence`, fuel-indexed:
`none` means the given number of iterations was not enough (for a
positive width the loop terminates; for a negative width it never
does). `acc` accumulates `final_sequence`; on exit the last character
(`final_sequence[:-1]`) is dropped. -/
def formattedLoop (seq : List Char) (width : ℤ) : ℤ → List Char → ℕ → Option (List Char)
  | _, _, 0 => none
  | cc, acc, fuel + 1 =>
    if cc < (seq.length : ℤ) then
      formattedLoop seq width (cc + width) (acc ++ pySlice seq cc (cc + width) ++ ['\n']) fuel
    else
      some acc.dropLast

/-- `FastaSequence.formatted_sequence(max_characters_per_line)`: a width
of exactly 0 is replaced by 1; then the wrapping loop runs (with explicit
fuel; the TypeError branch concerns non-int arguments only, which the
typed embedding rules out). -/
def FastaSequence.formatted_sequence (fs : FastaSequence) (max_characters_per_line : ℤ)
    (fuel : ℕ) : Option (List Char) :=
  let w := if max_characters_per_line = 0 then 1 else max_characters_per_line
  formattedLoop (fs.sequence_as_string) w 0 [] fuel

/-- `FastaSequence.formatted_fasta`: definition line, newline, sequence
wrapped at the default width 70.  The fuel `length + 1` always suffices
for a positive width (proved below). -/
def FastaSequence.formatted_fasta (fs : FastaSequence) : Option (List Char) :=
  (fs.formatted_sequence 70 (fs.sequence.length + 1)).map
    (fun body => fs.formatted_definition_line ++ '\n' :: body)

/-- Split a character stream into the lines a Python file iterator
yields.  Python keeps each trailing `'\n'` inside its line; since the
Reader immediately `strip()`s every line, the newline is dropped here
instead; a final piece without a newline is still a line, and an empty
final piece (text ending in `'\n'`) yields no extra line. -/
def pySplitLines : List Char → List (List Char)
  | [] => []
  | c :: rest =>
    if c = '\n' then
      [] :: pySplitLines rest
    else
      match pySplitLines rest with
      | [] => [[c]]
      | l :: ls => (c :: l) :: ls

/-- `parse_method` of the Reader. -/
inductive ParseMethod where
  | rich
  | quick
deriving DecidableEq, Repr

/-- One value yielded by `Reader.__iter__`: a FastaSequence in 'rich'
mode, or the `Fasta(header, sequence)` namedtuple in 'quick' mode. -/
inductive ReadItem where
  | richItem (fs : FastaSequence)
  | quickItem (header : List Char) (sequence : List Char)
deriving DecidableEq, Repr

/-- Record emission inside `Reader.__iter__`: 'rich' constructs a
FastaSequence (whose TypeError propagates as `none`), 'quick' packs the
raw pair. -/
def emitRecord (pm : ParseMethod) (st : Option SequenceType) (inf : Bool)
    (definition_line sequence : List Char) : Option ReadItem :=
  match pm with
  | .rich => (mkFastaSequence definition_line sequence st inf).map ReadItem.richItem
  | .quick => some (ReadItem.quickItem definition_line sequence)

/-- The line loop of `Reader.__iter__`.  State: pending definition line,
accumulated sequence text, the `parsing_fasta_sequence` flag, and the
list of values yielded so far.  A construction error aborts the whole
iteration (`none`), as the Python exception would. -/
def readerLoop (pm : ParseMethod) (st : Option SequenceType) (inf : Bool) :
    List (List Char) → List Char → List Char → Bool → List ReadItem → Option (List ReadItem)
  | [], definition_line, sequence, _, acc =>
    -- end of file: yield the last FASTA sequence if one was parsed
    if sequence.length > 0 then
      (emitRecord pm st inf definition_line sequence).map (fun it => acc ++ [it])
    else
      some acc
  | line :: rest, definition_line, sequence, parsing, acc =>
    let l := pyStrip line
    if parsing then
      if l.length > 0 ∧ l.head? ≠ some '>' then
        readerLoop pm st inf rest definition_line (sequence ++ l) true acc
      else if l.length > 0 ∧ l.head? = some '>' then
        match emitRecord pm st inf definition_line sequence with
        | some it => readerLoop pm st inf rest l [] true (acc ++ [it])
        | none => none
      else
        readerLoop pm st inf rest definition_line sequence true acc
    else
      if l.head? = some '>' then
        readerLoop pm st inf rest l sequence true acc
      else
        readerLoop pm st inf rest definition_line sequence false acc

/-- `Reader.__iter__` on the full text of the stream (the Reader's
constructor checks types and stream state only; `sequences_type`,
`infer_type` and `parse_method` are its remaining parameters). -/
def readerRead (pm : ParseMethod) (st : Option SequenceType) (inf : Bool)
    (text : List Char) : Option (List ReadItem) :=
  readerLoop pm st inf (pySplitLines text) [] [] false []

/-- Projection of a yielded item to (id, description, letters, type,
inferred flag) for stating concrete reading results ('quick' items use a
degenerate encoding, not relevant to rich-mode claims). -/
def richSummary : ReadItem → List Char × List Char × List Char × Option SequenceType × Bool
  | .richItem fs => (fs.id, fs.description, fs.sequence.map (fun lc => lc.letter_code), fs.sequence_type, fs.inferred_type)
  | .quickItem h s => (h, s, [], none, false)

/-- The concrete input text of the end-to-end claims. -/
def c1Input : List Char := ">seq1 desc\nACGT\nACGT\n\n>seq2\nMKV".toList

/-- Chunks of size `w + 1` (the mathematical description of the wrapping
loop for a positive width). -/
def wrapChunks (w : ℕ) : List Char → List (List Char)
  | [] => []
  | c :: cs => (c :: cs.take w) :: wrapChunks w (cs.drop w)
termination_by l => l.length
decreasing_by
  simp only [List.length_cons, List.length_drop]
  omega

/-- Join chunks with a newline separator and no trailing newline. -/
def joinNL : List (List Char) → List Char
  | [] => []
  | [l] => l
  | l :: ls => l ++ '\n' :: joinNL ls

/-- Join chunks, each terminated by a newline. -/
def linesFlatten (chunks : List (List Char)) : List Char :=
  (chunks.map (fun l => l ++ ['\n'])).flatten

/-- A concrete nucleotide record containing no G, C or S letter
(sequence 'AT'), exercising the saturating branch of `at_gc_ratio`. -/
def sampleAT : FastaSequence :=
  ⟨"seq3".toList, [],
   ['A', 'T'].map (fun c => mkLetterCode c (some SequenceType.nucleotide)),
   some SequenceType.nucleotide, false⟩

/-- The complement-table image of a letter (defaulting to the letter
itself off the table's key set; always used under a key-membership
hypothesis). -/
def complementTableImage (c : Char) : Char :=
  (lookupComplement nucleotide_letter_codes_complement c).getD c

/-- A concrete nucleotide record (as built by the constructor from
header '>seq1 desc' and sequence 'ACGT'), used by the witnesses. -/
def sampleFS : FastaSequence :=
  ⟨"seq1".toList, "desc".toList,
   ['A', 'C', 'G', 'T'].map (fun c => mkLetterCode c (some SequenceType.nucleotide)),
   some SequenceType.nucleotide, false⟩

/-! ## Theorems -/

/-- C4: for the input text ">seq1 desc\nACGT\nACGT\n\n>seq2\nMKV",
reading in Quick mode yields exactly the two pairs
(">seq1 desc", "ACGTACGT") and (">seq2", "MKV"): body lines are
concatenated, the blank line is discarded, and the final record is
emitted at end of stream. -/
theorem quick_read_end_to_end :
    readerRead ParseMethod.quick none false c1Input =
      some [ReadItem.quickItem ">seq1 desc".toList "ACGTACGT".toList,
            ReadItem.quickItem ">seq2".toList "MKV".toList] := by
  decide

/-- C1 counterexample: on the same input, Rich mode with
`infer_type = true` and no domain hint leaves BOTH records' domains
`none` (Unknown) and both `inferred_type` flags false; in particular the
second record's (domain, inferred) pair is (Unknown, false), not the
(AminoAcid, true) the claim asserts. -/
theorem rich_read_infer_no_aminoacid :
    (readerRead ParseMethod.rich none true c1Input).map
        (fun items => items.map (fun i => ((richSummary i).2.2.2.1, (richSummary i).2.2.2.2))) =
      some [(none, false), (none, false)] ∧
    ((none : Option SequenceType), false) ≠ (some SequenceType.aminoacid, true) := by
  decide

/-- C1 (amended): Rich-mode reading of ">seq1 desc\nACGT\nACGT\n\n>seq2\nMKV"
with `infer_type = true` and no domain hint yields two records
(ids seq1/seq2, sequences ACGTACGT/MKV); the domain of BOTH records is
Unknown with `type_was_inferred = false`, because M, K and V are also
nucleotide degenerate codes and hence not amino-acid-exclusive, so the
inference scan finds nothing. -/
theorem rich_read_end_to_end :
    (readerRead ParseMethod.rich none true c1Input).map (fun items => items.map richSummary) =
      some [("seq1".toList, "desc".toList, "ACGTACGT".toList, none, false),
            ("seq2".toList, ([] : List Char), "MKV".toList, none, false)] := by
  rfl

/-- C2 counterexample: constructing a record from the non-empty symbol
string "A" with the explicit domain Nucleotide and `infer = true` yields
a record whose domain is Unknown (`none`), not the explicitly supplied
Nucleotide. -/
theorem infer_overrides_explicit_type :
    (mkFastaSequence [] ['A'] (some SequenceType.nucleotide) true).map
        (fun fs => fs.sequence_type) = some none ∧
    some (none : Option SequenceType) ≠ some (some SequenceType.nucleotide) := by
  decide

/-- C2 (amended): for every non-empty raw symbol string and every
supplied domain, constructing a record with `infer = true` DOES run
inference and its result overwrites the supplied domain: the record's
domain is AminoAcid when some symbol is amino-acid-exclusive and
Unknown otherwise, and `type_was_inferred` records which case occurred. -/
theorem infer_always_runs (dl s : List Char) (st : Option SequenceType) (hs : s ≠ []) :
    ∃ fs, mkFastaSequence dl s st true = some fs ∧
      fs.sequence_type =
        (if s.any (fun c => aminoacids_not_in_nucleotides.contains c)
         then some SequenceType.aminoacid else none) ∧
      fs.inferred_type = s.any (fun c => aminoacids_not_in_nucleotides.contains c) := by
  refine ⟨⟨(parseDefinitionLine dl).1, (parseDefinitionLine dl).2,
          s.map (fun c => mkLetterCode c (inferSequenceTypeResult s).1),
          (inferSequenceTypeResult s).1, (inferSequenceTypeResult s).2⟩, ?_, ?_, ?_⟩
  · simp [mkFastaSequence, hs]
  · rw [inferSequenceTypeResult]
    by_cases h : s.any (fun c => aminoacids_not_in_nucleotides.contains c)
    · rw [if_pos h, if_pos h]
    · rw [if_neg h, if_neg h]
  · rw [inferSequenceTypeResult]
    by_cases h : s.any (fun c => aminoacids_not_in_nucleotides.contains c)
    · rw [if_pos h]
      exact h.symm
    · rw [if_neg h]
      simp only [Bool.not_eq_true] at h
      exact h.symm

/-- C2 witness: the amended theorem applied to the symbol string "A"
with explicit domain Nucleotide ("A" holds no amino-acid-exclusive
symbol, so the domain ends up Unknown). -/
theorem infer_always_runs_witness :
    (['A'] : List Char) ≠ [] ∧
    ∃ fs, mkFastaSequence [] ['A'] (some SequenceType.nucleotide) true = some fs ∧
      fs.sequence_type =
        (if (['A'] : List Char).any (fun c => aminoacids_not_in_nucleotides.contains c)
         then some SequenceType.aminoacid else none) ∧
      fs.inferred_type = (['A'] : List Char).any (fun c => aminoacids_not_in_nucleotides.contains c) :=
  ⟨by decide, infer_always_runs [] ['A'] (some SequenceType.nucleotide) (by decide)⟩

/-- C3: for every key of the nucleotide complement table, complementing
the nucleotide LetterCode twice restores the key, except for 'U', whose
complement is 'A' and whose double complement is therefore 'T'. -/
theorem complement_double (c : Char)
    (hc : c ∈ nucleotide_letter_codes_complement.map Prod.fst) :
    (c ≠ 'U' →
      (((mkLetterCode c (some SequenceType.nucleotide)).complement).bind
          LetterCode.complement).map (fun lc => lc.letter_code) = some c) ∧
    (c = 'U' →
      ((mkLetterCode c (some SequenceType.nucleotide)).complement).map
          (fun lc => lc.letter_code) = some 'A' ∧
      (((mkLetterCode c (some SequenceType.nucleotide)).complement).bind
          LetterCode.complement).map (fun lc => lc.letter_code) = some 'T') := by
  fin_cases hc <;> exact ⟨by decide, by decide⟩

/-- C3 witness: the theorem applied to the concrete key 'A'
(double complement restores 'A'). -/
theorem complement_double_witness :
    'A' ∈ nucleotide_letter_codes_complement.map Prod.fst ∧
    (('A' : Char) ≠ 'U' →
      (((mkLetterCode 'A' (some SequenceType.nucleotide)).complement).bind
          LetterCode.complement).map (fun lc => lc.letter_code) = some 'A') :=
  ⟨by decide, (complement_double 'A' (by decide)).1⟩

/-- C8: for every record with domain Nucleotide, `at_gc_ratio` returns
the A/T/W count divided by the G/C/S count, and returns exactly 0 (a
value, not an error) when the G/C/S count is 0. -/
theorem at_gc_ratio_spec (fs : FastaSequence)
    (h : fs.sequence_type = some SequenceType.nucleotide) :
    fs.at_gc_ratio =
      some (if fs.gcCount ≠ 0 then (fs.atCount : ℚ) / (fs.gcCount : ℚ) else 0) ∧
    (fs.gcCount = 0 → fs.at_gc_ratio = some 0) := by
  constructor
  · rw [FastaSequence.at_gc_ratio, if_pos h]
  · intro hz
    rw [FastaSequence.at_gc_ratio, if_pos h, if_neg (by simp [hz])]

/-- C8 witness: the theorem applied to a concrete nucleotide record with
no G/C/S letter, whose ratio is therefore the value 0. -/
theorem at_gc_ratio_spec_witness :
    sampleAT.sequence_type = some SequenceType.nucleotide ∧
    (sampleAT.at_gc_ratio =
      some (if sampleAT.gcCount ≠ 0 then (sampleAT.atCount : ℚ) / (sampleAT.gcCount : ℚ) else 0) ∧
    (sampleAT.gcCount = 0 → sampleAT.at_gc_ratio = some 0)) :=
  ⟨rfl, at_gc_ratio_spec sampleAT rfl⟩

/-- C9: for every non-empty record with domain Nucleotide, `gc_content`
returns the G/C/S count divided by the length, a value in [0, 1], and
`gc_content(as_percentage)` returns exactly 100 times that value. -/
theorem gc_content_spec (fs : FastaSequence)
    (h : fs.sequence_type = some SequenceType.nucleotide)
    (hne : fs.sequence ≠ []) :
    ∃ r : ℚ, fs.gc_content false = some r ∧ 0 ≤ r ∧ r ≤ 1 ∧
      fs.gc_content true = some (100 * r) := by
  have hlen : (0 : ℚ) < (fs.sequence.length : ℚ) := by
    exact_mod_cast List.length_pos.mpr hne
  refine ⟨(fs.gcCount : ℚ) / (fs.sequence.length : ℚ), ?_, ?_, ?_, ?_⟩
  · rw [FastaSequence.gc_content, if_pos h]
    simp
  · exact div_nonneg (Nat.cast_nonneg _) (le_of_lt hlen)
  · rw [div_le_one hlen]
    exact_mod_cast List.countP_le_length _
  · rw [FastaSequence.gc_content, if_pos h]
    simp [mul_comm]

/-- C9 witness: the theorem applied to the concrete record 'ACGT'
(gc_content 1/2, percentage 50). -/
theorem gc_content_spec_witness :
    sampleFS.sequence_type = some SequenceType.nucleotide ∧
    sampleFS.sequence ≠ [] ∧
    ∃ r : ℚ, sampleFS.gc_content false = some r ∧ 0 ≤ r ∧ r ≤ 1 ∧
      sampleFS.gc_content true = some (100 * r) :=
  ⟨rfl, by decide, gc_content_spec sampleFS rfl (by decide)⟩

/-- Python `dropWhile` stops at the first element failing the predicate,
so a list whose head fails it is returned whole. -/
theorem dropWhile_eq_self_of_head {p : Char → Bool} {l : List Char}
    (h : ∀ c, l.head? = some c → p c = false) : l.dropWhile p = l := by
  cases l with
  | nil => rfl
  | cons c t => simp [List.dropWhile_cons, h c rfl]

/-- Membership from `head?`. -/
theorem mem_of_head_eq {l : List Char} {c : Char} (h : l.head? = some c) : c ∈ l := by
  cases l with
  | nil => cases h
  | cons a t =>
    rw [List.head?_cons, Option.some_inj] at h
    exact h ▸ List.mem_cons_self a t

/-- Membership from `getLast?`. -/
theorem mem_of_getLast_eq {l : List Char} {c : Char} (h : l.getLast? = some c) : c ∈ l := by
  have : c ∈ l.reverse := mem_of_head_eq (by rwa [List.head?_reverse])
  exact List.mem_reverse.mp this

/-- `strip` leaves a string alone when its first and last characters are
not whitespace. -/
theorem pyStrip_eq_self {l : List Char}
    (h1 : ∀ c, l.head? = some c → isPySpace c = false)
    (h2 : ∀ c, l.getLast? = some c → isPySpace c = false) : pyStrip l = l := by
  unfold pyStrip
  rw [dropWhile_eq_self_of_head h1]
  rw [dropWhile_eq_self_of_head (fun c hc => h2 c (by rwa [List.head?_reverse] at hc))]
  exact List.reverse_reverse l

/-- `strip` leaves a whitespace-free string alone. -/
theorem pyStrip_eq_self_of_all {l : List Char}
    (h : ∀ c ∈ l, isPySpace c = false) : pyStrip l = l :=
  pyStrip_eq_self (fun c hc => h c (mem_of_head_eq hc))
    (fun c hc => h c (mem_of_getLast_eq hc))

/-- Splitting text at newlines: a newline-free prefix is the first line. -/
theorem pySplitLines_append {a rest : List Char} (h : '\n' ∉ a) :
    pySplitLines (a ++ '\n' :: rest) = a :: pySplitLines rest := by
  induction a with
  | nil => simp [pySplitLines]
  | cons c t ih =>
    have hc : c ≠ '\n' := fun e => h (e ▸ List.mem_cons_self c t)
    have ht : '\n' ∉ t := fun m => h (List.mem_cons_of_mem c m)
    rw [List.cons_append]
    simp only [pySplitLines, if_neg hc, ih ht]

/-- Splitting text at newlines: a non-empty newline-free text is one line. -/
theorem pySplitLines_single {a : List Char} (h : '\n' ∉ a) (hne : a ≠ []) :
    pySplitLines a = [a] := by
  induction a with
  | nil => cases hne rfl
  | cons c t ih =>
    have hc : c ≠ '\n' := fun e => h (e ▸ List.mem_cons_self c t)
    have ht : '\n' ∉ t := fun m => h (List.mem_cons_of_mem c m)
    by_cases hte : t = []
    · subst hte
      simp [pySplitLines, hc]
    · simp only [pySplitLines, if_neg hc, ih ht hte]

/-- C10: when a header line is immediately followed by another header
line, Quick mode emits a (header, "") pair with an empty sequence
component, while Rich mode fails because a FastaSequence rejects an
empty symbol string; and the trailing header with no body produces no
emission at end of stream in either mode. -/
theorem header_then_header (h1 h2 : List Char) (st : Option SequenceType) (inf : Bool)
    (hh1 : h1.head? = some '>') (hh2 : h2.head? = some '>')
    (hn1 : '\n' ∉ h1) (hn2 : '\n' ∉ h2)
    (hs1 : pyStrip h1 = h1) (hs2 : pyStrip h2 = h2) :
    readerRead ParseMethod.quick st inf (h1 ++ '\n' :: h2) =
      some [ReadItem.quickItem h1 []] ∧
    readerRead ParseMethod.rich st inf (h1 ++ '\n' :: h2) = none := by
  have hne2 : h2 ≠ [] := by
    intro e
    rw [e] at hh2
    cases hh2
  have hl2 : 0 < h2.length := List.length_pos.mpr hne2
  have hlines : pySplitLines (h1 ++ '\n' :: h2) = [h1, h2] :=
    by rw [pySplitLines_append hn1, pySplitLines_single hn2 hne2]
  constructor <;>
  · rw [readerRead, hlines]
    simp [readerLoop, hs1, hs2, hh1, hh2, hl2, emitRecord, mkFastaSequence]

/-- C10 witness: the theorem applied to the concrete headers ">a", ">b". -/
theorem header_then_header_witness :
    (">a".toList.head? = some '>') ∧
    readerRead ParseMethod.quick none false (">a".toList ++ '\n' :: ">b".toList) =
      some [ReadItem.quickItem ">a".toList []] ∧
    readerRead ParseMethod.rich none false (">a".toList ++ '\n' :: ">b".toList) = none :=
  ⟨by decide,
   header_then_header ">a".toList ">b".toList none false (by decide) (by decide)
     (by decide) (by decide) (by decide) (by decide)⟩

/-- A Python slice with natural bounds `[a : a + k]` is take-after-drop. -/
theorem pySlice_nat (l : List Char) (a k : ℕ) :
    pySlice l (a : ℤ) ((a : ℤ) + (k : ℤ)) = (l.drop a).take k := by
  unfold pySlice pySliceIdx
  rw [if_neg (by omega), if_neg (by omega)]
  have ha : ((a : ℤ)).toNat = a := Int.toNat_natCast a
  have hak : ((a : ℤ) + (k : ℤ)).toNat = a + k := by omega
  rw [ha, hak]
  rcases le_or_lt a l.length with hal | hal
  · rw [min_eq_left hal, List.drop_take]
    refine List.take_eq_take.mpr ?_
    rw [List.length_drop]
    omega
  · rw [min_eq_right (le_of_lt hal)]
    rw [List.drop_eq_nil_of_le (le_of_lt hal), List.take_nil]
    apply List.drop_eq_nil_of_le
    rw [List.length_take]
    omega

/-- Unfolding `linesFlatten` on a cons. -/
theorem linesFlatten_cons (l : List Char) (ls : List (List Char)) :
    linesFlatten (l :: ls) = (l ++ ['\n']) ++ linesFlatten ls := by
  simp [linesFlatten]

/-- Dropping the final newline of newline-terminated lines gives the
newline-separated join. -/
theorem dropLast_linesFlatten (chunks : List (List Char)) :
    (linesFlatten chunks).dropLast = joinNL chunks := by
  induction chunks with
  | nil => rfl
  | cons l ls ih =>
    cases ls with
    | nil => simp [linesFlatten, joinNL]
    | cons l2 ls2 =>
      rw [linesFlatten_cons]
      have hne : linesFlatten (l2 :: ls2) ≠ [] := by
        rw [linesFlatten_cons]
        simp
      rw [show (l ++ ['\n']) ++ linesFlatten (l2 :: ls2) =
            l ++ ('\n' :: linesFlatten (l2 :: ls2)) by simp]
      rw [List.dropLast_append_of_ne_nil _ (by simp)]
      rw [List.dropLast_cons_of_ne_nil hne, ih]
      rfl

/-- The chunks of the wrapping loop concatenate back to the input. -/
theorem wrapChunks_flatten (w : ℕ) (l : List Char) : (wrapChunks w l).flatten = l := by
  induction l using wrapChunks.induct w with
  | case1 => simp [wrapChunks]
  | case2 c cs ih =>
    rw [show wrapChunks w (c :: cs) = (c :: cs.take w) :: wrapChunks w (cs.drop w) by
          simp [wrapChunks]]
    simp only [List.flatten_cons, ih]
    rw [List.cons_append, List.take_append_drop]

/-- Every chunk of the wrapping loop is non-empty of length at most
`w + 1`. -/
theorem wrapChunks_mem {w : ℕ} {l ch : List Char} (h : ch ∈ wrapChunks w l) :
    ch ≠ [] ∧ ch.length ≤ w + 1 := by
  induction l using wrapChunks.induct w with
  | case1 =>
    simp [wrapChunks] at h
  | case2 c cs ih =>
    rw [show wrapChunks w (c :: cs) = (c :: cs.take w) :: wrapChunks w (cs.drop w) by
          simp [wrapChunks]] at h
    rcases List.mem_cons.mp h with hc | hc
    · subst hc
      refine ⟨by simp, ?_⟩
      simp only [List.length_cons, List.length_take]
      omega
    · exact ih hc

/-- The loop exits as soon as the cursor has passed the end. -/
theorem formattedLoop_done (seqC : List Char) (wz : ℤ) (cc : ℕ) (acc : List Char) (f : ℕ)
    (h : seqC.length ≤ cc) :
    formattedLoop seqC wz (cc : ℤ) acc (f + 1) = some acc.dropLast := by
  simp only [formattedLoop]
  rw [if_neg (by exact_mod_cast not_lt.mpr h)]

/-- Full characterization of the wrapping loop for a positive width
`w + 1`: with enough fuel it returns the accumulated text followed by the
newline-terminated chunks of the remaining input, minus a final
character. -/
theorem formattedLoop_eq (seqC : List Char) (w : ℕ) :
    ∀ (n : ℕ) (rest : List Char) (cc : ℕ) (acc : List Char) (fuel : ℕ),
      rest.length ≤ n → seqC.drop cc = rest → rest.length < fuel →
      formattedLoop seqC ((w : ℤ) + 1) (cc : ℤ) acc fuel =
        some ((acc ++ linesFlatten (wrapChunks w rest)).dropLast) := by
  intro n
  induction n with
  | zero =>
    intro rest cc acc fuel hlen hdrop hfuel
    have hrest : rest = [] := List.length_eq_zero.mp (Nat.le_zero.mp hlen)
    subst hrest
    cases fuel with
    | zero => omega
    | succ f =>
      rw [formattedLoop_done seqC _ cc acc f (List.drop_eq_nil_iff_le.mp hdrop)]
      simp [wrapChunks, linesFlatten]
  | succ n ih =>
    intro rest cc acc fuel hlen hdrop hfuel
    cases rest with
    | nil =>
      cases fuel with
      | zero => omega
      | succ f =>
        rw [formattedLoop_done seqC _ cc acc f (List.drop_eq_nil_iff_le.mp hdrop)]
        simp [wrapChunks, linesFlatten]
    | cons c cs =>
      cases fuel with
      | zero => omega
      | succ f =>
        have hcc_lt : cc < seqC.length := by
          by_contra hge
          push_neg at hge
          rw [List.drop_eq_nil_of_le hge] at hdrop
          cases hdrop
        have hslice : pySlice seqC (cc : ℤ) ((cc : ℤ) + ((w : ℤ) + 1)) = c :: cs.take w := by
          have h1 : ((w : ℤ) + 1) = ((w + 1 : ℕ) : ℤ) := by push_cast; ring
          rw [h1, pySlice_nat seqC cc (w + 1), hdrop]
          rfl
        simp only [formattedLoop]
        rw [if_pos (by exact_mod_cast hcc_lt), hslice]
        have hcast : (cc : ℤ) + ((w : ℤ) + 1) = ((cc + (w + 1) : ℕ) : ℤ) := by
          push_cast
          ring
        rw [hcast]
        have hdrop2 : seqC.drop (cc + (w + 1)) = cs.drop w := by
          rw [← List.drop_drop, hdrop]
          rfl
        rw [ih (cs.drop w) (cc + (w + 1)) (acc ++ (c :: cs.take w) ++ ['\n']) f
              (by simp only [List.length_drop, List.length_cons] at hlen ⊢; omega)
              hdrop2
              (by simp only [List.length_drop, List.length_cons] at hfuel ⊢; omega)]
        congr 1
        rw [show wrapChunks w (c :: cs) = (c :: cs.take w) :: wrapChunks w (cs.drop w) by
              simp [wrapChunks]]
        rw [linesFlatten_cons]
        simp [List.append_assoc]

/-- `formatted_sequence` with any positive width terminates within
`length + 1` iterations and produces the newline-join of the chunks. -/
theorem formatted_sequence_pos (fs : FastaSequence) (w : ℤ) (hw : 0 < w) :
    fs.formatted_sequence w (fs.sequence.length + 1) =
      some (joinNL (wrapChunks (w.toNat - 1) fs.sequence_as_string)) := by
  have hlen : fs.sequence_as_string.length = fs.sequence.length := by
    simp [FastaSequence.sequence_as_string]
  have hwshape : ((w.toNat - 1 : ℕ) : ℤ) + 1 = w := by omega
  have h := formattedLoop_eq fs.sequence_as_string (w.toNat - 1)
    fs.sequence_as_string.length fs.sequence_as_string 0 [] (fs.sequence.length + 1)
    le_rfl (by rfl) (by omega)
  rw [hwshape] at h
  rw [FastaSequence.formatted_sequence, if_neg (ne_of_gt hw)]
  rw [show ((0 : ℕ) : ℤ) = (0 : ℤ) from rfl] at h
  rw [h]
  rw [show ([] : List Char) ++ linesFlatten (wrapChunks (w.toNat - 1) fs.sequence_as_string) =
        linesFlatten (wrapChunks (w.toNat - 1) fs.sequence_as_string) from rfl]
  rw [dropLast_linesFlatten]

/-- For a negative width the cursor only decreases, so the loop never
reaches a result whatever the fuel. -/
theorem formattedLoop_neg_none (seqC : List Char) (hpos : 0 < seqC.length) :
    ∀ (fuel : ℕ) (cc : ℤ) (acc : List Char), cc ≤ 0 →
      formattedLoop seqC (-1) cc acc fuel = none := by
  intro fuel
  induction fuel with
  | zero => intro cc acc hcc; rfl
  | succ f ih =>
    intro cc acc hcc
    simp only [formattedLoop]
    rw [if_pos (by exact_mod_cast lt_of_le_of_lt hcc (by exact_mod_cast hpos))]
    exact ih _ _ (by omega)

/-- C7 counterexample: the claim says every non-positive width other
than 0 fails with an InvalidArgument condition, but the code accepts the
integer width -1 without raising: on the record 'ACGT' the wrapping loop
then never terminates — no iteration bound whatsoever makes it return
(`none` here means only that the fuel ran out; the model has no failure
outcome because the TypeError branch concerns non-integer arguments
only). -/
theorem formatted_negative_width_diverges :
    ¬ ∃ (fuel : ℕ) (out : List Char), sampleFS.formatted_sequence (-1) fuel = some out := by
  rintro ⟨fuel, out, h⟩
  rw [FastaSequence.formatted_sequence, if_neg (by decide)] at h
  rw [formattedLoop_neg_none _ (by decide) fuel 0 [] le_rfl] at h
  cases h

/-- C7 (amended): `formatted_body` rejects only non-integer widths (a
negative integer is accepted and loops forever, see the counterexample);
a width of exactly 0 is clamped to 1 so `formatted_body(0)` returns the
same string as `formatted_body(1)`; and for every positive width the
symbol string is wrapped into non-empty lines of at most that width
joined by newlines with no trailing newline. -/
theorem formatted_sequence_wrap :
    (∀ (fs : FastaSequence) (fuel : ℕ),
      fs.formatted_sequence 0 fuel = fs.formatted_sequence 1 fuel) ∧
    (∀ (fs : FastaSequence) (w : ℤ), 0 < w →
      ∃ lines : List (List Char),
        fs.formatted_sequence w (fs.sequence.length + 1) = some (joinNL lines) ∧
        lines.flatten = fs.sequence_as_string ∧
        ∀ l ∈ lines, l ≠ [] ∧ (l.length : ℤ) ≤ w) := by
  constructor
  · intro fs fuel
    rw [FastaSequence.formatted_sequence, FastaSequence.formatted_sequence]
    norm_num
  · intro fs w hw
    refine ⟨wrapChunks (w.toNat - 1) fs.sequence_as_string,
            formatted_sequence_pos fs w hw, wrapChunks_flatten _ _, ?_⟩
    intro l hl
    obtain ⟨h1, h2⟩ := wrapChunks_mem hl
    exact ⟨h1, by omega⟩

/-- C7 witness: the wrap part of the theorem applied to the record
'ACGT' at width 2 (lines "AC", "GT"). -/
theorem formatted_sequence_wrap_witness :
    (0 : ℤ) < 2 ∧
    ∃ lines : List (List Char),
      sampleFS.formatted_sequence 2 (sampleFS.sequence.length + 1) = some (joinNL lines) ∧
      lines.flatten = sampleFS.sequence_as_string ∧
      ∀ l ∈ lines, l ≠ [] ∧ (l.length : ℤ) ≤ 2 :=
  ⟨by decide, formatted_sequence_wrap.2 sampleFS 2 (by decide)⟩

/-- `takeWhile` keeps a prefix whose members all satisfy the predicate. -/
theorem takeWhile_append_all {p : Char → Bool} {a : List Char} (b : List Char)
    (h : ∀ c ∈ a, p c = true) : (a ++ b).takeWhile p = a ++ b.takeWhile p := by
  induction a with
  | nil => rfl
  | cons c t ih =>
    rw [List.cons_append, List.takeWhile_cons, if_pos (h c (List.mem_cons_self c t)),
        ih (fun x hx => h x (List.mem_cons_of_mem c hx)), List.cons_append]

/-- `dropWhile` removes a prefix whose members all satisfy the predicate. -/
theorem dropWhile_append_all {p : Char → Bool} {a : List Char} (b : List Char)
    (h : ∀ c ∈ a, p c = true) : (a ++ b).dropWhile p = b.dropWhile p := by
  induction a with
  | nil => rfl
  | cons c t ih =>
    rw [List.cons_append, List.dropWhile_cons, if_pos (h c (List.mem_cons_self c t)),
        ih (fun x hx => h x (List.mem_cons_of_mem c hx))]

/-- `split(maxsplit=1)` on a whitespace-free token followed by a space:
the token and the remainder (with the remainder's leading whitespace
already absent). -/
theorem splitMax1_token (tok rest : List Char) (hne : tok ≠ [])
    (htok : ∀ c ∈ tok, isPySpace c = false)
    (hrest : rest.dropWhile isPySpace = rest) :
    splitMax1 (tok ++ ' ' :: rest) = if rest = [] then [tok] else [tok, rest] := by
  cases tok with
  | nil => exact absurd rfl hne
  | cons c t =>
    have hc : isPySpace c = false := htok c (List.mem_cons_self c t)
    have hcb : (!isPySpace c) = true := by rw [hc]; rfl
    have hallt : ∀ x ∈ t, (!isPySpace x) = true :=
      fun x hx => by rw [htok x (List.mem_cons_of_mem c hx)]; rfl
    have htake : (c :: (t ++ ' ' :: rest)).takeWhile (fun x => !isPySpace x) = c :: t := by
      rw [List.takeWhile_cons, if_pos hcb, takeWhile_append_all (' ' :: rest) hallt]
      rw [show (' ' :: rest).takeWhile (fun x => !isPySpace x) = [] from rfl, List.append_nil]
    have hdrop : ((c :: (t ++ ' ' :: rest)).dropWhile (fun x => !isPySpace x)).dropWhile
        isPySpace = rest := by
      rw [List.dropWhile_cons, if_pos hcb, dropWhile_append_all (' ' :: rest) hallt]
      rw [show (' ' :: rest).dropWhile (fun x => !isPySpace x) = ' ' :: rest from rfl]
      rw [show (' ' :: rest).dropWhile isPySpace = rest.dropWhile isPySpace from rfl, hrest]
    rw [List.cons_append]
    simp only [splitMax1]
    rw [dropWhile_eq_self_of_head (fun x hx => by
      rw [List.head?_cons, Option.some_inj] at hx
      exact hx ▸ hc)]
    rw [htake, hdrop]

/-- `split(maxsplit=1)` on a non-empty whitespace-free string: one token. -/
theorem splitMax1_token_only (tok : List Char) (hne : tok ≠ [])
    (htok : ∀ c ∈ tok, isPySpace c = false) :
    splitMax1 tok = [tok] := by
  cases tok with
  | nil => exact absurd rfl hne
  | cons c t =>
    have hc : isPySpace c = false := htok c (List.mem_cons_self c t)
    have hallt : ∀ x ∈ c :: t, (!isPySpace x) = true :=
      fun x hx => by rw [htok x hx]; rfl
    have htake : (c :: t).takeWhile (fun x => !isPySpace x) = c :: t :=
      List.takeWhile_eq_self_iff.mpr hallt
    have hdrop : (c :: t).dropWhile (fun x => !isPySpace x) = [] :=
      List.dropWhile_eq_nil_iff.mpr (fun x hx => hallt x hx)
    simp only [splitMax1]
    rw [dropWhile_eq_self_of_head (fun x hx => by
      rw [List.head?_cons, Option.some_inj] at hx
      exact hx ▸ hc)]
    rw [htake, hdrop]
    rfl

/-- Header parsing of `id + ' ' + description` (the definition line the
complement operation rebuilds), when the id is whitespace-free, does not
start with '>', and is only empty when the description is. -/
theorem parseDefinitionLine_id_desc (i desc : List Char)
    (hid : ∀ c ∈ i, isPySpace c = false)
    (hgt : i.head? ≠ some '>')
    (hempty : i = [] → desc = [])
    (hdesc : desc.dropWhile isPySpace = desc) :
    parseDefinitionLine (i ++ ' ' :: desc) = (i, desc) := by
  cases i with
  | nil =>
    rw [hempty rfl]
    decide
  | cons c t =>
    rw [parseDefinitionLine,
        splitMax1_token (c :: t) desc (by simp) hid hdesc]
    have hc : (c :: t).head? ≠ some '>' := hgt
    by_cases hd : desc = []
    · subst hd
      rw [if_pos rfl]
      show (if (c :: t) = ['>'] then (([] : List Char), ([] : List Char))
            else if (c :: t).head? = some '>' then ((c :: t).tail, ([] : List Char))
            else (c :: t, [])) = (c :: t, [])
      rw [if_neg ?tokne, if_neg hc]
      case tokne =>
        intro e
        rw [e] at hc
        exact hc rfl
    · rw [if_neg hd]
      show (if (c :: t).head? = some '>' then ((c :: t).tail, desc) else (c :: t, desc)) =
        (c :: t, desc)
      rw [if_neg hc]

/-- Whatever the domain, a LetterCode's stored letter is the upper-cased
input letter. -/
theorem mkLetterCode_letter_code (c : Char) (st : Option SequenceType) :
    (mkLetterCode c st).letter_code = c.toUpper := by
  unfold mkLetterCode
  cases st with
  | none => rfl
  | some t =>
    cases h1 : lookupDescription (goodTable t) c.toUpper with
    | some d => simp [h1]
    | none =>
      cases h2 : lookupDescription (degenerateTable t) c.toUpper with
      | some d => simp [h1, h2]
      | none => simp [h1, h2]

/-- Every key of the complement table has a defined image, and that
image is an upper-case letter (stable under `toUpper`). -/
theorem complement_key_spec (c : Char)
    (hc : c ∈ nucleotide_letter_codes_complement.map Prod.fst) :
    lookupComplement nucleotide_letter_codes_complement c = some (complementTableImage c) ∧
    (complementTableImage c).toUpper = complementTableImage c := by
  fin_cases hc <;> exact ⟨rfl, rfl⟩

/-- A loop over `Option`-valued steps that all succeed maps the list. -/
theorem mapOption_eq_map {α β : Type} {f : α → Option β} {g : α → β} {l : List α}
    (h : ∀ a ∈ l, f a = some (g a)) : mapOption f l = some (l.map g) := by
  induction l with
  | nil => rfl
  | cons a t ih =>
    rw [mapOption, h a (List.mem_cons_self a t),
        ih (fun b hb => h b (List.mem_cons_of_mem a hb))]
    rfl

/-- A successful construction (non-empty sequence, no inference),
written as the record it produces. -/
theorem mkFastaSequence_eq (dl s : List Char) (st : Option SequenceType) (hs : s ≠ []) :
    mkFastaSequence dl s st false =
      some ⟨(parseDefinitionLine dl).1, (parseDefinitionLine dl).2,
            s.map (fun c => mkLetterCode c st), st, false⟩ := by
  simp [mkFastaSequence, hs]

/-- C6 counterexample: the record built from the symbol 'E' with the
explicit domain Nucleotide has domain Nucleotide, yet `complement()`
does not return a new record — it fails ('E' has no entry in the
complement table, a KeyError in the source). -/
theorem complement_nucleotide_fails :
    (mkFastaSequence [] ['E'] (some SequenceType.nucleotide) false).map
        (fun fs => fs.sequence_type) = some (some SequenceType.nucleotide) ∧
    (mkFastaSequence [] ['E'] (some SequenceType.nucleotide) false).bind
        FastaSequence.complement = none := by
  decide

/-- C6 (amended): complement() fails for every record whose domain is
not Nucleotide; and for a Nucleotide record whose letters all carry the
record's domain and appear in the complement table, and whose id is
whitespace-free, does not start with '>', and is non-empty unless the
description is empty too (with the description not starting with
whitespace), complement() returns a new record of the same length, same
id, same description and same domain whose i-th symbol is the
complement-table image of the original i-th symbol.  (Records violating
these side conditions exist and break the claim: see the
counterexample.) -/
theorem complement_spec :
    (∀ fs : FastaSequence, fs.sequence_type ≠ some SequenceType.nucleotide →
      fs.complement = none) ∧
    (∀ fs : FastaSequence,
      fs.sequence_type = some SequenceType.nucleotide →
      fs.sequence ≠ [] →
      (∀ lc ∈ fs.sequence, lc.sequence_type = some SequenceType.nucleotide ∧
        lc.letter_code ∈ nucleotide_letter_codes_complement.map Prod.fst) →
      (∀ c ∈ fs.id, isPySpace c = false) →
      fs.id.head? ≠ some '>' →
      (fs.id = [] → fs.description = []) →
      fs.description.dropWhile isPySpace = fs.description →
      ∃ fs', fs.complement = some fs' ∧
        fs'.id = fs.id ∧
        fs'.description = fs.description ∧
        fs'.sequence_type = fs.sequence_type ∧
        fs'.sequence.length = fs.sequence.length ∧
        fs'.sequence.map (fun lc => lc.letter_code) =
          fs.sequence.map (fun lc => complementTableImage lc.letter_code)) := by
  constructor
  · intro fs h
    rw [FastaSequence.complement, if_neg h]
  · intro fs hty hne hlcs hid hgt hempty hdesc
    have hmap : mapOption (fun lc => lc.complement.map (fun r => r.letter_code)) fs.sequence =
        some (fs.sequence.map (fun lc => complementTableImage lc.letter_code)) := by
      apply mapOption_eq_map
      intro lc hlc
      obtain ⟨hty', hkey⟩ := hlcs lc hlc
      obtain ⟨hlook, hupper⟩ := complement_key_spec _ hkey
      rw [LetterCode.complement, if_pos hty', hlook]
      simp [hty', mkLetterCode_letter_code, hupper]
    have hchne : fs.sequence.map (fun lc => complementTableImage lc.letter_code) ≠ [] := by
      simp [hne]
    refine ⟨⟨fs.id, fs.description,
      (fs.sequence.map (fun lc => complementTableImage lc.letter_code)).map
        (fun c => mkLetterCode c (some SequenceType.nucleotide)),
      some SequenceType.nucleotide, false⟩, ?_, rfl, rfl, hty.symm, ?_, ?_⟩
    · rw [FastaSequence.complement, if_pos hty, hmap]
      show mkFastaSequence (fs.id ++ ' ' :: fs.description)
          (fs.sequence.map (fun lc => complementTableImage lc.letter_code))
          fs.sequence_type false = _
      rw [hty, mkFastaSequence_eq _ _ _ hchne,
          parseDefinitionLine_id_desc fs.id fs.description hid hgt hempty hdesc]
    · simp
    · rw [List.map_map, List.map_map]
      refine List.map_congr_left ?_
      intro lc hlc
      show (mkLetterCode (complementTableImage lc.letter_code) (some SequenceType.nucleotide)).letter_code =
        complementTableImage lc.letter_code
      rw [mkLetterCode_letter_code]
      exact (complement_key_spec _ (hlcs lc hlc).2).2

/-- C6 witness: the theorem's Nucleotide part applied to the concrete
record 'ACGT' (complement 'TGCA'). -/
theorem complement_spec_witness :
    sampleFS.sequence_type = some SequenceType.nucleotide ∧
    ∃ fs', sampleFS.complement = some fs' ∧
      fs'.id = sampleFS.id ∧
      fs'.description = sampleFS.description ∧
      fs'.sequence_type = sampleFS.sequence_type ∧
      fs'.sequence.length = sampleFS.sequence.length ∧
      fs'.sequence.map (fun lc => lc.letter_code) =
        sampleFS.sequence.map (fun lc => complementTableImage lc.letter_code) :=
  ⟨rfl, complement_spec.2 sampleFS rfl (by decide) (by decide) (by decide) (by decide)
    (by decide) (by decide)⟩

/-- `strip` of a whitespace-free string followed by one space. -/
theorem pyStrip_append_space {l : List Char} (h : ∀ c ∈ l, isPySpace c = false) :
    pyStrip (l ++ [' ']) = l := by
  cases l with
  | nil => rfl
  | cons c t =>
    have hc : isPySpace c = false := h c (List.mem_cons_self c t)
    have hall : ∀ x ∈ t.reverse ++ [c], isPySpace x = false := by
      intro x hx
      rcases List.mem_append.mp hx with h1 | h2
      · exact h x (List.mem_cons_of_mem c (List.mem_reverse.mp h1))
      · rcases List.mem_singleton.mp h2 with rfl
        exact hc
    unfold pyStrip
    rw [List.cons_append]
    have h1 : (c :: (t ++ [' '])).dropWhile isPySpace = c :: (t ++ [' ']) :=
      dropWhile_eq_self_of_head (fun x hx => by
        rw [List.head?_cons, Option.some_inj] at hx
        exact hx ▸ hc)
    rw [h1]
    have h2 : (c :: (t ++ [' '])).reverse = ' ' :: (t.reverse ++ [c]) := by
      simp
    rw [h2]
    have h3 : (' ' :: (t.reverse ++ [c])).dropWhile isPySpace =
        (t.reverse ++ [c]).dropWhile isPySpace := rfl
    rw [h3, dropWhile_eq_self_of_head (fun x hx => hall x (mem_of_head_eq hx))]
    simp

/-- Header parsing of a stripped formatted definition line with an empty
description: `'>' + id`. -/
theorem parseDefinitionLine_gt (i : List Char)
    (hid : ∀ c ∈ i, isPySpace c = false) :
    parseDefinitionLine ('>' :: i) = (i, []) := by
  have hall : ∀ c ∈ '>' :: i, isPySpace c = false := by
    intro c hc
    rcases List.mem_cons.mp hc with rfl | hm
    · decide
    · exact hid c hm
  rw [parseDefinitionLine, splitMax1_token_only ('>' :: i) (by simp) hall]
  show (if ('>' :: i) = ['>'] then (([] : List Char), ([] : List Char))
        else if ('>' :: i).head? = some '>' then (('>' :: i).tail, ([] : List Char))
        else ('>' :: i, [])) = (i, [])
  by_cases hi : i = []
  · subst hi
    rw [if_pos rfl]
  · rw [if_neg (fun e => hi (by injection e)),
        if_pos (show ('>' :: i).head? = some '>' from rfl)]
    rfl

/-- Header parsing of a formatted definition line `'>' + id + ' ' +
description`. -/
theorem parseDefinitionLine_gt_desc (i desc : List Char)
    (hid : ∀ c ∈ i, isPySpace c = false)
    (hdesc : desc.dropWhile isPySpace = desc) :
    parseDefinitionLine ('>' :: i ++ ' ' :: desc) = (i, desc) := by
  have hall : ∀ c ∈ '>' :: i, isPySpace c = false := by
    intro c hc
    rcases List.mem_cons.mp hc with rfl | hm
    · decide
    · exact hid c hm
  rw [show ('>' :: i ++ ' ' :: desc) = ('>' :: i) ++ ' ' :: desc from rfl]
  rw [parseDefinitionLine, splitMax1_token ('>' :: i) desc (by simp) hall hdesc]
  by_cases hdne : desc = []
  · subst hdne
    rw [if_pos rfl]
    show (if ('>' :: i) = ['>'] then (([] : List Char), ([] : List Char))
          else if ('>' :: i).head? = some '>' then (('>' :: i).tail, ([] : List Char))
          else ('>' :: i, [])) = (i, [])
    by_cases hi : i = []
    · subst hi
      rw [if_pos rfl]
    · rw [if_neg (fun e => hi (by injection e)),
          if_pos (show ('>' :: i).head? = some '>' from rfl)]
      rfl
  · rw [if_neg hdne]
    show (if ('>' :: i).head? = some '>' then (('>' :: i).tail, desc)
          else ('>' :: i, desc)) = (i, desc)
    rw [if_pos (show ('>' :: i).head? = some '>' from rfl)]
    rfl

/-- Splitting the newline-join of non-empty newline-free lines recovers
the lines. -/
theorem pySplitLines_joinNL (chunks : List (List Char))
    (h : ∀ l ∈ chunks, l ≠ [] ∧ '\n' ∉ l) :
    pySplitLines (joinNL chunks) = chunks := by
  induction chunks with
  | nil => rfl
  | cons l ls ih =>
    cases ls with
    | nil =>
      obtain ⟨hne, hnl⟩ := h l (List.mem_cons_self l [])
      exact pySplitLines_single hnl hne
    | cons l2 ls2 =>
      obtain ⟨hne, hnl⟩ := h l (List.mem_cons_self l (l2 :: ls2))
      rw [show joinNL (l :: l2 :: ls2) = l ++ '\n' :: joinNL (l2 :: ls2) from rfl]
      rw [pySplitLines_append hnl, ih (fun x hx => h x (List.mem_cons_of_mem l hx))]

/-- In the accumulating state, a run of non-empty non-header
whitespace-free lines is appended to the pending sequence text. -/
theorem readerLoop_body (pm : ParseMethod) (st : Option SequenceType) (inf : Bool)
    (chunks : List (List Char)) :
    ∀ (dl seq : List Char) (acc : List ReadItem),
      (∀ l ∈ chunks, l ≠ [] ∧ l.head? ≠ some '>' ∧ ∀ c ∈ l, isPySpace c = false) →
      readerLoop pm st inf chunks dl seq true acc =
        readerLoop pm st inf [] dl (seq ++ chunks.flatten) true acc := by
  induction chunks with
  | nil =>
    intro dl seq acc h
    rw [List.flatten_nil, List.append_nil]
  | cons l ls ih =>
    intro dl seq acc h
    obtain ⟨hlne, hgt, hws⟩ := h l (List.mem_cons_self l ls)
    have hstrip : pyStrip l = l := pyStrip_eq_self_of_all hws
    have hlen : 0 < l.length := List.length_pos.mpr hlne
    simp only [readerLoop, hstrip]
    rw [if_pos trivial]
    rw [if_pos (show l.length > 0 ∧ ¬(l.head? = some '>') from ⟨hlen, hgt⟩)]
    rw [ih dl (seq ++ l) acc (fun x hx => h x (List.mem_cons_of_mem l hx))]
    rw [List.flatten_cons, List.append_assoc]
    rfl

/-- At end of stream the pending record is emitted when its accumulated
sequence text is non-empty. -/
theorem readerLoop_eof (pm : ParseMethod) (st : Option SequenceType) (inf : Bool)
    (dl seq : List Char) (acc : List ReadItem) (hne : seq ≠ []) :
    readerLoop pm st inf [] dl seq true acc =
      (emitRecord pm st inf dl seq).map (fun it => acc ++ [it]) := by
  simp only [readerLoop]
  rw [if_pos (List.length_pos.mpr hne)]

/-- C5 counterexample: the record built from the single symbol '>'
renders as "> \n>", and re-parsing that text in Rich mode yields no
record at all — the Reader takes the body line ">" for a new header and
record construction fails on the empty accumulated sequence. -/
theorem round_trip_fails :
    (mkFastaSequence [] ['>'] none false).map FastaSequence.formatted_fasta =
      some (some "> \n>".toList) ∧
    readerRead ParseMethod.rich none false "> \n>".toList = none := by
  decide

/-- C5 (amended): for every record whose symbols are non-whitespace
non-'>' upper-case-stable characters, whose id is whitespace-free, and
whose description is newline-free with no leading or trailing
whitespace, rendering with formatted_record() and re-parsing via the
Reader yields exactly one record with the same id, the same description
and the same ordered symbol sequence.  (Whitespace or '>' symbols, or
header text that re-splits differently, break the round trip: see the
counterexample.) -/
theorem round_trip (fs : FastaSequence)
    (hne : fs.sequence ≠ [])
    (hsym : ∀ lc ∈ fs.sequence, isPySpace lc.letter_code = false ∧
      lc.letter_code ≠ '>' ∧ lc.letter_code.toUpper = lc.letter_code)
    (hid : ∀ c ∈ fs.id, isPySpace c = false)
    (hdesc_nl : '\n' ∉ fs.description)
    (hdesc_head : ∀ c, fs.description.head? = some c → isPySpace c = false)
    (hdesc_last : ∀ c, fs.description.getLast? = some c → isPySpace c = false) :
    ∃ text fs',
      fs.formatted_fasta = some text ∧
      readerRead ParseMethod.rich none false text = some [ReadItem.richItem fs'] ∧
      fs'.id = fs.id ∧
      fs'.description = fs.description ∧
      fs'.sequence.map (fun lc => lc.letter_code) =
        fs.sequence.map (fun lc => lc.letter_code) := by
  have hseq_props : ∀ c ∈ fs.sequence_as_string,
      isPySpace c = false ∧ c ≠ '>' ∧ c.toUpper = c := by
    intro c hc
    rw [FastaSequence.sequence_as_string] at hc
    obtain ⟨lc, hlc, rfl⟩ := List.mem_map.mp hc
    exact hsym lc hlc
  have hseq_ne : fs.sequence_as_string ≠ [] := by
    rw [FastaSequence.sequence_as_string]
    simp [hne]
  have hchmem : ∀ l ∈ wrapChunks 69 fs.sequence_as_string,
      l ≠ [] ∧ l.head? ≠ some '>' ∧ (∀ c ∈ l, isPySpace c = false) ∧ '\n' ∉ l := by
    intro l hl
    have hsub : ∀ c ∈ l, c ∈ fs.sequence_as_string := by
      intro c hc
      have hmem : c ∈ (wrapChunks 69 fs.sequence_as_string).flatten :=
        List.mem_flatten.mpr ⟨l, hl, hc⟩
      rwa [wrapChunks_flatten] at hmem
    obtain ⟨hlne, _⟩ := wrapChunks_mem hl
    refine ⟨hlne, ?_, fun c hc => (hseq_props c (hsub c hc)).1, ?_⟩
    · intro he
      exact (hseq_props '>' (hsub '>' (mem_of_head_eq he))).2.1 rfl
    · intro hnl
      exact absurd ((hseq_props '\n' (hsub '\n' hnl)).1) (by decide)
  have hflat : (wrapChunks 69 fs.sequence_as_string).flatten = fs.sequence_as_string :=
    wrapChunks_flatten 69 fs.sequence_as_string
  have hff : fs.formatted_fasta =
      some (fs.formatted_definition_line ++ '\n' ::
        joinNL (wrapChunks 69 fs.sequence_as_string)) := by
    rw [FastaSequence.formatted_fasta, formatted_sequence_pos fs 70 (by norm_num)]
    rfl
  have hid_nonl : ∀ c ∈ fs.id, c ≠ '\n' := by
    intro c hc e
    have h1 := hid c hc
    rw [e] at h1
    exact absurd h1 (by decide)
  have hhdr_nl : '\n' ∉ fs.formatted_definition_line := by
    rw [FastaSequence.formatted_definition_line]
    intro hmem
    rcases List.mem_cons.mp hmem with h1 | h2
    · exact absurd h1 (by decide)
    rcases List.mem_append.mp h2 with h3 | h4
    · exact hid_nonl _ h3 rfl
    rcases List.mem_cons.mp h4 with h5 | h6
    · exact absurd h5 (by decide)
    · exact hdesc_nl h6
  have hsplit : pySplitLines (fs.formatted_definition_line ++ '\n' ::
      joinNL (wrapChunks 69 fs.sequence_as_string)) =
      fs.formatted_definition_line :: wrapChunks 69 fs.sequence_as_string := by
    rw [pySplitLines_append hhdr_nl,
        pySplitLines_joinNL _ (fun l hl => ⟨(hchmem l hl).1, (hchmem l hl).2.2.2⟩)]
  obtain ⟨H, hstrip, hHhead, hparse⟩ :
      ∃ H, pyStrip fs.formatted_definition_line = H ∧ H.head? = some '>' ∧
        parseDefinitionLine H = (fs.id, fs.description) := by
    by_cases hd : fs.description = []
    · refine ⟨'>' :: fs.id, ?_, rfl, ?_⟩
      · rw [FastaSequence.formatted_definition_line, hd]
        show pyStrip (('>' :: fs.id) ++ [' ']) = '>' :: fs.id
        exact pyStrip_append_space (fun c hc => by
          rcases List.mem_cons.mp hc with rfl | hm
          · decide
          · exact hid c hm)
      · rw [hd]
        exact parseDefinitionLine_gt fs.id hid
    · refine ⟨fs.formatted_definition_line, ?_, rfl, ?_⟩
      · apply pyStrip_eq_self
        · intro c hc
          rw [FastaSequence.formatted_definition_line] at hc
          rw [show ('>' :: fs.id) ++ ' ' :: fs.description =
                '>' :: (fs.id ++ ' ' :: fs.description) from rfl] at hc
          rw [List.head?_cons, Option.some_inj] at hc
          rw [← hc]
          decide
        · intro c hc
          rw [FastaSequence.formatted_definition_line] at hc
          rw [List.getLast?_append_cons] at hc
          rw [show (' ' :: fs.description) = [' '] ++ fs.description from rfl] at hc
          rw [List.getLast?_append_of_ne_nil [' '] hd] at hc
          exact hdesc_last c hc
      · rw [FastaSequence.formatted_definition_line]
        exact parseDefinitionLine_gt_desc fs.id fs.description hid
          (dropWhile_eq_self_of_head hdesc_head)
  refine ⟨_, ⟨fs.id, fs.description,
      fs.sequence_as_string.map (fun c => mkLetterCode c none), none, false⟩,
      hff, ?_, rfl, rfl, ?_⟩
  · rw [readerRead, hsplit]
    simp only [readerLoop, hstrip]
    rw [if_neg (show ¬(false = true) by decide), if_pos hHhead]
    rw [readerLoop_body ParseMethod.rich none false _ H [] []
        (fun l hl => ⟨(hchmem l hl).1, (hchmem l hl).2.1, (hchmem l hl).2.2.1⟩)]
    rw [List.nil_append, hflat]
    rw [readerLoop_eof ParseMethod.rich none false H fs.sequence_as_string [] hseq_ne]
    simp only [emitRecord]
    rw [mkFastaSequence_eq _ _ _ hseq_ne, hparse]
    rfl
  · rw [List.map_map]
    show fs.sequence_as_string.map
        ((fun lc => lc.letter_code) ∘ (fun c => mkLetterCode c none)) =
      fs.sequence_as_string
    have hmapid : fs.sequence_as_string.map
        ((fun lc => lc.letter_code) ∘ (fun c => mkLetterCode c none)) =
        fs.sequence_as_string.map id := by
      refine List.map_congr_left ?_
      intro c hc
      show (mkLetterCode c none).letter_code = c
      rw [mkLetterCode_letter_code]
      exact (hseq_props c hc).2.2
    rw [hmapid, List.map_id]

/-- C5 witness: the amended theorem applied to the concrete record with
header '>seq1 desc' and sequence 'ACGT'. -/
theorem round_trip_witness :
    sampleFS.sequence ≠ [] ∧
    ∃ text fs',
      sampleFS.formatted_fasta = some text ∧
      readerRead ParseMethod.rich none false text = some [ReadItem.richItem fs'] ∧
      fs'.id = sampleFS.id ∧
      fs'.description = sampleFS.description ∧
      fs'.sequence.map (fun lc => lc.letter_code) =
        sampleFS.sequence.map (fun lc => lc.letter_code) :=
  ⟨by decide, round_trip sampleFS (by decide) (by decide) (by decide) (by decide)
    (by decide) (by decide)⟩

end FastaParser
